import Mathlib

/-!
# A shallow embedding of `shell.c`

The program is a single C file: a read-eval loop that tokenizes a command
line with `strtok`, detects a trailing `&`, scans the argument array for
`<`, `>` and `|`, forks, and (in the child) calls `execvp`.

Modelling conventions:

* a C string is the list of its characters before the terminating NUL;
* a `char *` slot of the `arguments` array is an `Option Token`, `none`
  standing for `NULL`;
* the slots of `arguments` are a function of the index `i`; the declared
  array has the indices below `MAX_COMMAND_LINE_ARGS`, and a store at any
  other index is undefined behaviour: the tokenizer records it as an
  overflow and the pass ends there (`Fault.storeOutOfBounds`);
* system calls that can fail take their success from a `World` oracle and
  return an `Option`;
* the parent's descriptor table, its reports on the error stream and the
  children it forked are explicit state (`Proc`).
-/

namespace Shell

/-! ## Constants and globals -/

/-- A C string: the characters before the terminating NUL. -/
abbrev Token := List Char

/-- The constant `#define MAX_COMMAND_LINE_LEN 1024`. -/
def MAX_COMMAND_LINE_LEN : Nat := 1024

/-- The constant `#define MAX_COMMAND_LINE_ARGS 128`. -/
def MAX_COMMAND_LINE_ARGS : Nat := 128

/-- The global `char delimiters[] = " \t\r\n";`. -/
def delimiters : List Char := [' ', '\t', '\r', '\n']

/-- The constant `STDIN_FILENO`. -/
def STDIN_FILENO : Nat := 0

/-- The constant `STDOUT_FILENO`. -/
def STDOUT_FILENO : Nat := 1

/-- The constant `EXIT_FAILURE`. -/
def EXIT_FAILURE : Nat := 1

/-- Membership test of a character in `delimiters`, as `strtok` performs it. -/
def isDelim (c : Char) : Bool := delimiters.elem c

/-! ## `strtok` -/

/-- One call of `strtok(_, delimiters)` on the text at the saved position:
skip leading delimiters; at the end of the string return `NULL`; otherwise
the token runs up to the next delimiter, which is overwritten by NUL, and
the saved position moves just past it (or stays at the end of the string). -/
def strtok (s : List Char) : Option (Token × List Char) :=
  match s.dropWhile isDelim with
  | [] => none
  | c :: cs =>
    some ((c :: cs).takeWhile (fun x => !isDelim x),
          ((c :: cs).dropWhile (fun x => !isDelim x)).drop 1)

/-! ## The `arguments` array -/

/-- The slots of `char *arguments[MAX_COMMAND_LINE_ARGS]` by index; `none`
is `NULL`. Only the indices below `MAX_COMMAND_LINE_ARGS` are slots of the
array. -/
abbrev ArgMem := Nat → Option Token

/-- The assignment `arguments[i] = v`. -/
def store (a : ArgMem) (i : Nat) (v : Option Token) : ArgMem :=
  fun j => if j = i then v else a j

/-- State after the tokenizer loop. -/
structure Tokenized where
  /-- Contents of `arguments`. -/
  arguments : ArgMem
  /-- Value of `arg_count`. -/
  arg_count : Nat
  /-- Indices of `arguments` that were assigned, in program order. -/
  writes : List Nat
  /-- The index of a store that fell outside the array, if there was one.
  Such a store is undefined behaviour: it lands in whatever lies behind the
  array. `arg_count` and `writes` are then the values at that store, and
  `arguments` says nothing about the program's memory after it. -/
  overflow : Option Nat

/-- The loop `while (token != NULL && arg_count < MAX_COMMAND_LINE_ARGS)`.
The first argument bounds the number of iterations still possible; the loop
guard itself is tested as in the source, so every store of the loop body is
inside the array. -/
def tokenLoop : Nat → Option Token → List Char → Nat → ArgMem → List Nat → Tokenized
  | 0, _, _, arg_count, arguments, ws => ⟨arguments, arg_count, ws, none⟩
  | fuel + 1, token, save, arg_count, arguments, ws =>
    match token with
    | none => ⟨arguments, arg_count, ws, none⟩
    | some tok =>
      if arg_count < MAX_COMMAND_LINE_ARGS then
        match strtok save with
        | none =>
          tokenLoop fuel none [] (arg_count + 1)
            (store arguments arg_count (some tok)) (ws ++ [arg_count])
        | some (next, save1) =>
          tokenLoop fuel (some next) save1 (arg_count + 1)
            (store arguments arg_count (some tok)) (ws ++ [arg_count])
      else ⟨arguments, arg_count, ws, none⟩

/-- Lines 102-111: the first `strtok` call, the loop, and the assignment
`arguments[arg_count] = NULL`. That assignment is not guarded in the source:
when the loop stopped at `arg_count = MAX_COMMAND_LINE_ARGS` it stores one
past the last slot of the array, which is recorded as the overflow and
leaves the slots of the array as the loop filled them. -/
def tokenize (mem : ArgMem) (command_line : List Char) : Tokenized :=
  let r :=
    match strtok command_line with
    | none => tokenLoop (MAX_COMMAND_LINE_ARGS + 1) none [] 0 mem []
    | some (tok, save) => tokenLoop (MAX_COMMAND_LINE_ARGS + 1) (some tok) save 0 mem []
  if r.arg_count < MAX_COMMAND_LINE_ARGS then
    ⟨store r.arguments r.arg_count none, r.arg_count, r.writes ++ [r.arg_count], none⟩
  else
    ⟨r.arguments, r.arg_count, r.writes ++ [r.arg_count], some r.arg_count⟩

/-- The entries `arguments[0] .. arguments[n-1]`. -/
def slots (a : ArgMem) (n : Nat) : List (Option Token) :=
  (List.range n).map a

/-- Spec side of the tokenizer: the maximal runs of non-delimiter
characters of the line, left to right. -/
def maximalRuns (line : List Char) : List Token :=
  (line.splitOnP isDelim).filter (fun t => !t.isEmpty)

/-! ## Operating-system model -/

/-- What an open descriptor refers to. -/
inductive Desc where
  /-- One of the streams the shell inherited at start-up. -/
  | inherited (fd : Nat)
  /-- Result of `open(path, O_RDONLY)`. -/
  | rdonly (path : Token)
  /-- Result of `open(path, O_WRONLY | O_CREAT | O_TRUNC, mode)`. -/
  | wrtrunc (path : Token) (mode : Nat)
  /-- Read end of the `k`-th pipe created. -/
  | pipeRead (k : Nat)
  /-- Write end of the `k`-th pipe created. -/
  | pipeWrite (k : Nat)
  deriving DecidableEq, Repr

/-- Descriptor table of a process: open descriptor numbers with what they
refer to. The first entry for a number is the live one. -/
abbrev FdTable := List (Nat × Desc)

/-- What descriptor `fd` refers to, `none` when it is not open. -/
def descOf : FdTable → Nat → Option Desc
  | [], _ => none
  | (k, d) :: t, fd => if k = fd then some d else descOf t fd

/-- The descriptor numbers that are open. -/
def openFds (t : FdTable) : List Nat := t.map Prod.fst

/-- Search for the lowest number at or above the candidate that is not in use. -/
def lowestFreeFrom (used : List Nat) : Nat → Nat → Nat
  | 0, c => c
  | f + 1, c => if c ∈ used then lowestFreeFrom used f (c + 1) else c

/-- The lowest descriptor number not open: the number `open` and `pipe`
hand out (POSIX). -/
def lowestFree (t : FdTable) : Nat :=
  lowestFreeFrom (openFds t) (openFds t).length 0

/-- Allocate the lowest free descriptor for `d`. -/
def install (t : FdTable) (d : Desc) : Nat × FdTable :=
  (lowestFree t, (lowestFree t, d) :: t)

/-- The call `close(fd)`. -/
def sys_close (t : FdTable) (fd : Nat) : FdTable :=
  t.filter (fun e => e.1 ≠ fd)

/-- The call `dup2(oldfd, newfd)`; `none` when `oldfd` is not open. -/
def sys_dup2 (t : FdTable) (oldfd newfd : Nat) : Option FdTable :=
  match descOf t oldfd with
  | none => none
  | some d => if oldfd = newfd then some t else some ((newfd, d) :: sys_close t newfd)

/-- Which system calls succeed. -/
structure World where
  /-- Whether `open(path, O_RDONLY)` succeeds. -/
  canRead : Token → Bool
  /-- Whether `open(path, O_WRONLY | O_CREAT | O_TRUNC, 0666)` succeeds. -/
  canWrite : Token → Bool
  /-- Whether `pipe` succeeds. -/
  pipeOk : Bool
  /-- Whether `fork` succeeds. -/
  forkOk : Bool
  /-- Whether `waitpid` succeeds. -/
  waitOk : Bool

/-- A forked child, followed up to the point where it leaves `main`. -/
inductive Child where
  /-- The child reached `execvp(file, argv)` with descriptor table `fds`;
  `file` is `arguments[0]` and `argv` the entries before the first `NULL`. -/
  | execvp (file : Option Token) (argv : List Token) (fds : FdTable)
  /-- The child called `exit(code)` after `perror(report)`. -/
  | exited (code : Nat) (report : String)
  deriving DecidableEq, Repr

/-- The shell process. -/
structure Proc where
  /-- Descriptors open in the parent. -/
  fds : FdTable
  /-- Number of pipes created so far. -/
  pipes : Nat
  /-- Tags of the `perror` reports written, oldest first. -/
  stderr : List String
  /-- Children forked, oldest first; a child's position is its pid. -/
  children : List Child
  /-- Pids on which `waitpid` returned. -/
  waited : List Nat
  deriving DecidableEq, Repr

/-- The call `perror(tag)`. -/
def perror (p : Proc) (tag : String) : Proc :=
  { p with stderr := p.stderr ++ [tag] }

/-- An operation outside what C defines, at which the pass leaves the
program text. -/
inductive Fault where
  /-- The call `strcmp(arguments[i], _)` with `arguments[i] == NULL`: the
  process reads through the `NULL` pointer. -/
  | strcmpNull (i : Nat)
  /-- The call `open(arguments[i], _)` with `arguments[i] == NULL`. The
  kernel refuses the path (`EFAULT`), `open` returns -1, and the shell goes
  on to `perror("open")` and `exit(EXIT_FAILURE)`. -/
  | openNull (i : Nat)
  /-- The store `arguments[i] = _` with `i` outside the array. -/
  | storeOutOfBounds (i : Nat)
  deriving DecidableEq, Repr

/-- How a stretch of `main` ends. -/
inductive Outcome (α : Type) where
  /-- Control reaches the end of the stretch. -/
  | ok (a : α)
  /-- The shell process called `exit(code)`. -/
  | exit (code : Nat) (p : Proc)
  /-- The shell process performed the operation `f`; `p` is its state when
  it ended there (for `openNull`, after the report and at the `exit`). -/
  | fault (f : Fault) (p : Proc)
  deriving DecidableEq, Repr

/-! ## Background detection (lines 113-118) -/

/-- The test `arg_count > 0 && strcmp(arguments[arg_count - 1], "&") == 0`
and the assignment under it. Returns `background` and `arguments`. -/
def detectBackground (arguments : ArgMem) (arg_count : Nat) (p : Proc) :
    Outcome (Bool × ArgMem) :=
  if arg_count > 0 then
    match arguments (arg_count - 1) with
    | none => .fault (.strcmpNull (arg_count - 1)) p
    | some tok =>
      if tok = ['&'] then .ok (true, store arguments (arg_count - 1) none)
      else .ok (false, arguments)
  else .ok (false, arguments)

/-! ## Redirection and pipe scan (lines 120-159) -/

/-- Local variables of the scan, with the process state. -/
structure Scan where
  /-- Contents of `arguments`. -/
  arguments : ArgMem
  /-- Value of `input_fd`. -/
  input_fd : Nat
  /-- Value of `output_fd`. -/
  output_fd : Nat
  /-- Value of `pipe_fd`. -/
  pipe_fd : Nat × Nat
  /-- The shell process. -/
  proc : Proc

/-- Body of the `for` loop at index `i`. A `NULL` slot handed to `open` makes
the call fail, so the branch `perror("open"); exit(EXIT_FAILURE)` is taken;
the outcome keeps the record that the path was `NULL`. -/
def scanStep (w : World) (arg_count i : Nat) (s : Scan) : Outcome Scan :=
  match s.arguments i with
  | none => .fault (.strcmpNull i) s.proc
  | some tok =>
    if tok = ['<'] then
      if i < arg_count - 1 then
        match s.arguments (i + 1) with
        | none => .fault (.openNull (i + 1)) (perror s.proc "open")
        | some path =>
          if w.canRead path then
            let r := install s.proc.fds (.rdonly path)
            .ok { s with input_fd := r.1, proc := { s.proc with fds := r.2 } }
          else .exit EXIT_FAILURE (perror s.proc "open")
      else .ok s
    else if tok = ['>'] then
      if i < arg_count - 1 then
        match s.arguments (i + 1) with
        | none => .fault (.openNull (i + 1)) (perror s.proc "open")
        | some path =>
          if w.canWrite path then
            let r := install s.proc.fds (.wrtrunc path 0o666)
            .ok { s with output_fd := r.1, proc := { s.proc with fds := r.2 } }
          else .exit EXIT_FAILURE (perror s.proc "open")
      else .ok s
    else if tok = ['|'] then
      if w.pipeOk then
        let r0 := install s.proc.fds (.pipeRead s.proc.pipes)
        let r1 := install r0.2 (.pipeWrite s.proc.pipes)
        .ok { arguments := store s.arguments i none
              input_fd := r0.1
              output_fd := r1.1
              pipe_fd := (r0.1, r1.1)
              proc := { s.proc with fds := r1.2, pipes := s.proc.pipes + 1 } }
      else .exit EXIT_FAILURE (perror s.proc "pipe")
    else .ok s

/-- The loop `for (int i = 0; i < arg_count; ++i)` from index `i` on; the
first argument bounds the number of iterations still possible. -/
def scanLoop (w : World) (arg_count : Nat) : Nat → Nat → Scan → Outcome Scan
  | 0, _, s => .ok s
  | fuel + 1, i, s =>
    if i < arg_count then
      match scanStep w arg_count i s with
      | .ok s1 => scanLoop w arg_count fuel (i + 1) s1
      | .exit c p => .exit c p
      | .fault f p => .fault f p
    else .ok s

/-- Lines 120-159: initialisation of `input_fd`, `output_fd`, `pipe_fd`
and the scan loop. -/
def scan (w : World) (arguments : ArgMem) (arg_count : Nat) (p : Proc) : Outcome Scan :=
  scanLoop w arg_count arg_count 0
    { arguments := arguments, input_fd := STDIN_FILENO, output_fd := STDOUT_FILENO,
      pipe_fd := (0, 0), proc := p }

/-! ## Fork, child and parent (lines 161-212) -/

/-- The entries of `arguments` from index `i` up to the first `NULL`, as
`execvp` reads them. -/
def argvFrom (a : ArgMem) : Nat → Nat → List Token
  | 0, _ => []
  | fuel + 1, i =>
    match a i with
    | none => []
    | some t => t :: argvFrom a fuel (i + 1)

/-- Lines 168-192, the child branch: bind `input_fd` and `output_fd` onto
the standard slots, then `execvp(arguments[0], arguments)`. The call
`alarm(10)` changes nothing that is modelled here. -/
def childRun (fds : FdTable) (input_fd output_fd : Nat) (arguments : ArgMem) : Child :=
  let bound0 :=
    if input_fd ≠ STDIN_FILENO then
      (sys_dup2 fds input_fd STDIN_FILENO).map (fun t => sys_close t input_fd)
    else some fds
  match bound0 with
  | none => .exited EXIT_FAILURE "dup2"
  | some t0 =>
    let bound1 :=
      if output_fd ≠ STDOUT_FILENO then
        (sys_dup2 t0 output_fd STDOUT_FILENO).map (fun t => sys_close t output_fd)
      else some t0
    match bound1 with
    | none => .exited EXIT_FAILURE "dup2"
    | some t1 => .execvp (arguments 0) (argvFrom arguments (MAX_COMMAND_LINE_ARGS + 1) 0) t1

/-- Lines 193-212, the parent branch after a successful `fork`: wait for
the child unless `background` is set, then close `pipe_fd[0]` and
`pipe_fd[1]` when they are not 0. The call `alarm(0)` changes nothing that
is modelled here. -/
def parentAfterFork (w : World) (p : Proc) (pid : Nat) (background : Bool)
    (pipe_fd : Nat × Nat) : Outcome Proc :=
  let closePipes (q : Proc) : Proc :=
    let f0 := if pipe_fd.1 ≠ 0 then sys_close q.fds pipe_fd.1 else q.fds
    let f1 := if pipe_fd.2 ≠ 0 then sys_close f0 pipe_fd.2 else f0
    { q with fds := f1 }
  if !background then
    if w.waitOk then .ok (closePipes { p with waited := p.waited ++ [pid] })
    else .exit EXIT_FAILURE (perror p "waitpid")
  else .ok (closePipes p)

/-- Lines 161-212: `fork` and both branches. -/
def spawn (w : World) (s : Scan) (background : Bool) : Outcome Proc :=
  if w.forkOk then
    let pid := s.proc.children.length
    let child := childRun s.proc.fds s.input_fd s.output_fd s.arguments
    parentAfterFork w { s.proc with children := s.proc.children ++ [child] } pid
      background s.pipe_fd
  else .exit EXIT_FAILURE (perror s.proc "fork")

/-! ## One pass of the read-eval loop (lines 101-212) -/

/-- Lines 113-159: background detection followed by the scan. Returns
`background` and the state the scan ended in. -/
def resolve (w : World) (p : Proc) (arguments : ArgMem) (arg_count : Nat) :
    Outcome (Bool × Scan) :=
  match detectBackground arguments arg_count p with
  | .fault f q => .fault f q
  | .exit c q => .exit c q
  | .ok (background, arguments1) =>
    match scan w arguments1 arg_count p with
    | .fault f q => .fault f q
    | .exit c q => .exit c q
    | .ok s => .ok (background, s)

/-- One pass of `while (true)` from the tokenizer on, for the text that
`fgets` left in `command_line`; `.ok` means control returns to the top of
the loop. The functions `handle_cd`, `handle_pwd`, `handle_echo`,
`handle_env` and `handle_setenv` are defined in the file, but `main`
contains no call to any of them, so none appears here. -/
def iteration (w : World) (p : Proc) (mem : ArgMem) (command_line : List Char) :
    Outcome Proc :=
  let t := tokenize mem command_line
  match t.overflow with
  | some i => .fault (.storeOutOfBounds i) p
  | none =>
    match resolve w p t.arguments t.arg_count with
    | .fault f q => .fault f q
    | .exit c q => .exit c q
    | .ok (background, s) => spawn w s background

/-- The exit status of the shell process, when the pass ended it with one. -/
def exitStatus {α : Type} : Outcome α → Option Nat
  | .ok _ => none
  | .exit c _ => some c
  | .fault (.openNull _) _ => some EXIT_FAILURE
  | .fault (.strcmpNull _) _ => none
  | .fault (.storeOutOfBounds _) _ => none

/-- The fault a stretch of `main` ended in, if it did. -/
def faultOf {α : Type} : Outcome α → Option Fault
  | .ok _ => none
  | .exit _ _ => none
  | .fault f _ => some f

/-- The value of `background`, when detection returned. -/
def backgroundOf : Outcome (Bool × ArgMem) → Option Bool
  | .ok (b, _) => some b
  | .exit _ _ => none
  | .fault _ _ => none

/-- The descriptor numbers open in the shell when the pass ended. -/
def fdsAfter : Outcome Proc → List Nat
  | .ok q => openFds q.fds
  | .exit _ q => openFds q.fds
  | .fault _ q => openFds q.fds

/-! ## Concrete worlds and states used in the examples -/

/-- The shell at start-up: the three standard descriptors, nothing else. -/
def proc0 : Proc :=
  { fds := [(0, .inherited 0), (1, .inherited 1), (2, .inherited 2)]
    pipes := 0, stderr := [], children := [], waited := [] }

/-- A world in which every system call succeeds. -/
def worldOk : World :=
  { canRead := fun _ => true, canWrite := fun _ => true
    pipeOk := true, forkOk := true, waitOk := true }

/-- A world in which no file can be opened; the other calls succeed. -/
def worldNoFiles : World :=
  { canRead := fun _ => false, canWrite := fun _ => false
    pipeOk := true, forkOk := true, waitOk := true }

/-- Contents of `arguments` before the first pass: nothing but `NULL`. -/
def mem0 : ArgMem := fun _ => none

/-- A line of 128 one-letter tokens: 256 characters and the newline. -/
def line128 : List Char := (List.replicate 128 ['a', ' ']).flatten ++ ['\n']

/-- The names in the spec's builtin table. -/
def builtinNames : List Token :=
  ["cd".toList, "pwd".toList, "echo".toList, "env".toList, "setenv".toList]

/-! ## Auxiliary definitions for the tokenizer proofs -/

/-- Storing the tokens of `l` at the indices `n`, `n + 1`, ... -/
def storeList (a : ArgMem) : Nat → List Token → ArgMem
  | _, [] => a
  | n, t :: l => storeList (store a n (some t)) (n + 1) l

/-- The tokens still to come when `strtok` last returned `token` and its
saved position is `save`. -/
def pending (token : Option Token) (save : List Char) : List Token :=
  match token with
  | none => []
  | some t => t :: maximalRuns save

/-- The tokens the loop keeps: the first `MAX_COMMAND_LINE_ARGS` runs. -/
def keptTokens (line : List Char) : List Token :=
  (maximalRuns line).take MAX_COMMAND_LINE_ARGS

/-! ## Spec side of the resolver -/

/-- The resolver rules in the spec's words, applied once to each token from
left to right, later assignments overwriting earlier ones. The plan is the
pair (input source, output sink); `k` numbers the next pipe. A `<` or `>`
with a token after it opens that token as a file, a `|` makes a pipe and
binds both of its ends, a `<` or `>` that is the last token assigns
nothing; a failed open or pipe is fatal for the command (`none`). -/
def specRules (w : World) : Nat → Desc × Desc → List Token → Option (Desc × Desc)
  | _, plan, [] => some plan
  | k, plan, tok :: rest =>
    if tok = ['<'] then
      match rest.head? with
      | none => specRules w k plan rest
      | some path =>
        if w.canRead path then specRules w k (.rdonly path, plan.2) rest else none
    else if tok = ['>'] then
      match rest.head? with
      | none => specRules w k plan rest
      | some path =>
        if w.canWrite path then specRules w k (plan.1, .wrtrunc path 0o666) rest else none
    else if tok = ['|'] then
      if w.pipeOk then specRules w (k + 1) (.pipeRead k, .pipeWrite k) rest else none
    else specRules w k plan rest

/-- What the resolved `input_fd` and `output_fd` refer to, when the scan
ran to its end. -/
def planOf : Outcome Scan → Option (Desc × Desc)
  | .ok s =>
    match descOf s.proc.fds s.input_fd, descOf s.proc.fds s.output_fd with
    | some i, some o => some (i, o)
    | _, _ => none
  | .exit _ _ => none
  | .fault _ _ => none

/-! ## Tokenizer: `strtok` against the maximal runs -/

theorem splitOnP_takeWhile (p : Char → Bool) (xs : List Char) :
    xs.splitOnP p = xs.takeWhile (fun x => !p x) ::
      (match xs.dropWhile (fun x => !p x) with
       | [] => []
       | _ :: r => r.splitOnP p) := by
  induction xs with
  | nil => simp
  | cons x xs ih =>
    rw [List.splitOnP_cons]
    by_cases hx : p x = true
    · simp [hx, List.takeWhile, List.dropWhile]
    · have hx' : p x = false := by simpa using hx
      rw [if_neg hx, ih]
      simp [hx', List.takeWhile, List.dropWhile, List.modifyHead]

theorem strtok_cons_delim (x : Char) (xs : List Char) (hx : isDelim x = true) :
    strtok (x :: xs) = strtok xs := by
  simp [strtok, List.dropWhile, hx]

theorem maximalRuns_cons_delim (x : Char) (xs : List Char) (hx : isDelim x = true) :
    maximalRuns (x :: xs) = maximalRuns xs := by
  simp [maximalRuns, List.splitOnP_cons, hx]

/-- The maximal runs of a string are the token `strtok` returns followed by
the maximal runs of the text at the saved position. -/
theorem maximalRuns_eq_strtok (s : List Char) :
    maximalRuns s =
      match strtok s with
      | none => []
      | some (t, r) => t :: maximalRuns r := by
  induction s with
  | nil => simp [maximalRuns, strtok]
  | cons x xs ih =>
    by_cases hx : isDelim x = true
    · rw [strtok_cons_delim x xs hx, maximalRuns_cons_delim x xs hx]; exact ih
    · have hx' : isDelim x = false := by simpa using hx
      have hs : strtok (x :: xs) =
          some ((x :: xs).takeWhile (fun c => !isDelim c),
                ((x :: xs).dropWhile (fun c => !isDelim c)).drop 1) := by
        simp [strtok, List.dropWhile, hx']
      rw [hs]
      show maximalRuns (x :: xs) = _ :: maximalRuns _
      unfold maximalRuns
      rw [splitOnP_takeWhile isDelim (x :: xs)]
      rcases hD : (x :: xs).dropWhile (fun c => !isDelim c) with _ | ⟨d, r⟩
      · simp [List.takeWhile, hx']
      · simp [List.takeWhile, hx']

theorem tokenLoop_spec (fuel : Nat) :
    ∀ (token : Option Token) (save : List Char) (n : Nat) (a : ArgMem) (ws : List Nat),
      MAX_COMMAND_LINE_ARGS < n + fuel →
      tokenLoop fuel token save n a ws =
        ⟨storeList a n ((pending token save).take (MAX_COMMAND_LINE_ARGS - n)),
         n + ((pending token save).take (MAX_COMMAND_LINE_ARGS - n)).length,
         ws ++ List.range' n ((pending token save).take (MAX_COMMAND_LINE_ARGS - n)).length,
         none⟩ := by
  induction fuel with
  | zero =>
    intro token save n a ws h
    have h0 : MAX_COMMAND_LINE_ARGS - n = 0 := by omega
    simp [tokenLoop, h0, storeList]
  | succ fuel ih =>
    intro token save n a ws h
    cases token with
    | none => simp [tokenLoop, pending, storeList]
    | some tok =>
      by_cases hn : n < MAX_COMMAND_LINE_ARGS
      · obtain ⟨m, hm⟩ : ∃ m, MAX_COMMAND_LINE_ARGS - n = m + 1 := ⟨MAX_COMMAND_LINE_ARGS - n - 1, by omega⟩
        have hm' : MAX_COMMAND_LINE_ARGS - (n + 1) = m := by omega
        have hfuel : MAX_COMMAND_LINE_ARGS < n + 1 + fuel := by omega
        have hp : pending (some tok) save = tok :: maximalRuns save := rfl
        rw [hp, hm, maximalRuns_eq_strtok save]
        unfold tokenLoop
        simp only [hn, if_true]
        cases hs : strtok save with
        | none =>
          simp only []
          rw [ih none [] (n + 1) _ _ hfuel]
          simp [pending, storeList]
        | some r =>
          obtain ⟨next, save1⟩ := r
          simp only []
          rw [ih (some next) save1 (n + 1) _ _ hfuel, hm']
          have hp1 : pending (some next) save1 = next :: maximalRuns save1 := rfl
          rw [hp1]
          simp only [List.take_succ_cons, storeList, List.length_cons, List.range'_succ,
            List.append_assoc, List.singleton_append]
          congr 1
          omega
      · have h0 : MAX_COMMAND_LINE_ARGS - n = 0 := by omega
        simp [tokenLoop, hn, h0, storeList]

/-- What `tokenize` leaves behind, for every line. -/
theorem tokenize_spec (mem : ArgMem) (line : List Char) :
    tokenize mem line =
      if (keptTokens line).length < MAX_COMMAND_LINE_ARGS then
        ⟨store (storeList mem 0 (keptTokens line)) (keptTokens line).length none,
         (keptTokens line).length,
         List.range' 0 (keptTokens line).length ++ [(keptTokens line).length], none⟩
      else
        ⟨storeList mem 0 (keptTokens line), (keptTokens line).length,
         List.range' 0 (keptTokens line).length ++ [(keptTokens line).length],
         some (keptTokens line).length⟩ := by
  have hp : ∀ token save, pending token save = maximalRuns line →
      tokenLoop (MAX_COMMAND_LINE_ARGS + 1) token save 0 mem [] =
        ⟨storeList mem 0 (keptTokens line), (keptTokens line).length,
         List.range' 0 (keptTokens line).length, none⟩ := by
    intro token save h
    rw [tokenLoop_spec _ token save 0 mem [] (by omega), h]
    simp [keptTokens]
  unfold tokenize
  have hr := maximalRuns_eq_strtok line
  cases hs : strtok line with
  | none =>
    rw [hs] at hr
    simp only []
    rw [hp none [] (by simpa [pending] using hr.symm)]
  | some r =>
    obtain ⟨tok, save⟩ := r
    rw [hs] at hr
    simp only []
    rw [hp (some tok) save (by simpa [pending] using hr.symm)]

theorem storeList_apply (l : List Token) :
    ∀ (a : ArgMem) (n j : Nat),
      storeList a n l j =
        if j < n then a j else
          match l[j - n]? with
          | some t => some t
          | none => a j := by
  induction l with
  | nil => intro a n j; simp [storeList]
  | cons t l ih =>
    intro a n j
    rw [storeList, ih]
    by_cases h1 : j < n
    · have h2 : j < n + 1 := by omega
      have h3 : j ≠ n := by omega
      simp [h1, h2, store, h3]
    · by_cases h2 : j = n
      · subst h2
        simp [store]
      · have h3 : ¬ j < n + 1 := by omega
        obtain ⟨k, hk⟩ : ∃ k, j - n = k + 1 := ⟨j - n - 1, by omega⟩
        have hk' : j - (n + 1) = k := by omega
        simp [h1, h3, hk, hk', store, h2]

/-- Every slot below `arg_count` holds the corresponding kept token. -/
theorem tokenize_slot (mem : ArgMem) (line : List Char) (j : Nat)
    (hj : j < (keptTokens line).length) :
    (tokenize mem line).arguments j = (keptTokens line)[j]? := by
  rw [tokenize_spec]
  have h1 : j ≠ (keptTokens line).length := by omega
  split_ifs
  · simp only [store, h1, if_false]
    rw [storeList_apply]
    simp [hj]
  · simp only []
    rw [storeList_apply]
    simp [hj]

theorem tokenize_arg_count (mem : ArgMem) (line : List Char) :
    (tokenize mem line).arg_count = (keptTokens line).length := by
  rw [tokenize_spec]
  split_ifs <;> rfl

/-- The terminating `NULL` is in place when fewer than
`MAX_COMMAND_LINE_ARGS` tokens were kept. -/
theorem tokenize_terminator (mem : ArgMem) (line : List Char)
    (h : (tokenize mem line).arg_count < MAX_COMMAND_LINE_ARGS) :
    (tokenize mem line).arguments (tokenize mem line).arg_count = none := by
  rw [tokenize_arg_count] at h
  rw [tokenize_spec, if_pos h]
  simp [store]

/-- No store leaves the array exactly when fewer than
`MAX_COMMAND_LINE_ARGS` tokens were kept. -/
theorem tokenize_overflow (mem : ArgMem) (line : List Char) :
    (tokenize mem line).overflow =
      if (tokenize mem line).arg_count < MAX_COMMAND_LINE_ARGS then none
      else some (tokenize mem line).arg_count := by
  rw [tokenize_arg_count, tokenize_spec]
  split_ifs <;> rfl

theorem tokenize_slots (mem : ArgMem) (line : List Char) :
    slots (tokenize mem line).arguments (tokenize mem line).arg_count =
      (keptTokens line).map some := by
  apply List.ext_getElem?
  intro i
  rw [tokenize_arg_count]
  by_cases hi : i < (keptTokens line).length
  · simp [slots, hi, tokenize_slot mem line i hi, List.getElem?_eq_getElem hi]
  · have hle : (keptTokens line).length ≤ i := by omega
    have h1 : (List.range (keptTokens line).length)[i]? = none :=
      List.getElem?_eq_none (by simpa using hle)
    have h2 : (keptTokens line)[i]? = none := List.getElem?_eq_none hle
    simp [slots, h1, h2]

theorem splitOnP_no_sep (p : Char → Bool) (xs : List Char) :
    ∀ t ∈ xs.splitOnP p, ∀ c ∈ t, p c = false := by
  induction xs with
  | nil => simp
  | cons x xs ih =>
    rw [List.splitOnP_cons]
    by_cases hx : p x = true
    · intro t ht
      simp only [hx, if_true, List.mem_cons] at ht
      rcases ht with rfl | ht
      · simp
      · exact ih t ht
    · have hx' : p x = false := by simpa using hx
      rw [if_neg hx]
      rcases hsp : xs.splitOnP p with _ | ⟨h, tl⟩
      · exact absurd hsp (List.splitOnP_ne_nil p xs)
      · rw [hsp] at ih
        intro t ht
        simp only [List.modifyHead, List.mem_cons] at ht
        rcases ht with rfl | ht
        · intro c hc
          rcases List.mem_cons.mp hc with rfl | hc
          · exact hx'
          · exact ih h (List.mem_cons_self _ _) c hc
        · exact ih t (List.mem_cons_of_mem _ ht)

/-- Every maximal run is non-empty and free of delimiters. -/
theorem maximalRuns_token (line : List Char) :
    ∀ t ∈ maximalRuns line, t ≠ [] ∧ ∀ c ∈ t, isDelim c = false := by
  intro t ht
  unfold maximalRuns at ht
  rw [List.mem_filter] at ht
  refine ⟨?_, splitOnP_no_sep isDelim line t ht.1⟩
  intro h
  subst h
  simp at ht

theorem flatten_filter_nonempty (l : List (List Char)) :
    (l.filter (fun t => !t.isEmpty)).flatten = l.flatten := by
  induction l with
  | nil => rfl
  | cons t l ih =>
    cases t with
    | nil => simpa using ih
    | cons c cs => simp [List.filter_cons, ih]

theorem splitOnP_flatten (p : Char → Bool) (xs : List Char) :
    (xs.splitOnP p).flatten = xs.filter (fun c => !p c) := by
  induction xs with
  | nil => simp
  | cons x xs ih =>
    rw [List.splitOnP_cons]
    by_cases hx : p x = true
    · simp [hx, ih]
    · have hx' : p x = false := by simpa using hx
      rw [if_neg hx]
      rcases hsp : xs.splitOnP p with _ | ⟨h, tl⟩
      · exact absurd hsp (List.splitOnP_ne_nil p xs)
      · rw [hsp] at ih
        simp only [List.modifyHead, List.flatten_cons, List.cons_append]
        rw [List.filter_cons_of_pos (by simp [hx'])]
        rw [← ih]
        simp

/-- Joined together, the maximal runs are the line without its delimiters. -/
theorem maximalRuns_flatten (line : List Char) :
    (maximalRuns line).flatten = line.filter (fun c => !isDelim c) := by
  unfold maximalRuns
  rw [flatten_filter_nonempty, splitOnP_flatten]

/-! ## Descriptor allocation -/

theorem filter_succ_le (used : List Nat) (c : Nat) :
    (used.filter (fun x => decide (c + 1 ≤ x))).length + (if c ∈ used then 1 else 0) ≤
      (used.filter (fun x => decide (c ≤ x))).length := by
  induction used with
  | nil => simp
  | cons x xs ih =>
    have hmem : (c ∈ x :: xs) ↔ (c = x ∨ c ∈ xs) := List.mem_cons
    by_cases hc : c ∈ xs
    · have hm : c ∈ x :: xs := hmem.mpr (Or.inr hc)
      rw [if_pos hc] at ih
      rw [if_pos hm]
      by_cases h1 : c + 1 ≤ x
      · have h2 : c ≤ x := by omega
        rw [List.filter_cons_of_pos (by simpa using h1), List.filter_cons_of_pos (by simpa using h2)]
        simp only [List.length_cons]
        omega
      · by_cases h2 : c ≤ x
        · rw [List.filter_cons_of_neg (by simpa using h1),
            List.filter_cons_of_pos (by simpa using h2)]
          simp only [List.length_cons]
          omega
        · rw [List.filter_cons_of_neg (by simpa using h1),
            List.filter_cons_of_neg (by simpa using h2)]
          omega
    · rw [if_neg hc, Nat.add_zero] at ih
      by_cases h1 : c + 1 ≤ x
      · have h2 : c ≤ x := by omega
        have h3 : ¬ c ∈ x :: xs := by
          intro h; rcases hmem.mp h with h | h
          · omega
          · exact hc h
        rw [if_neg h3, List.filter_cons_of_pos (by simpa using h1),
          List.filter_cons_of_pos (by simpa using h2)]
        simp only [List.length_cons]
        omega
      · by_cases h2 : c ≤ x
        · have h3 : c ∈ x :: xs := hmem.mpr (Or.inl (by omega))
          rw [if_pos h3, List.filter_cons_of_neg (by simpa using h1),
            List.filter_cons_of_pos (by simpa using h2)]
          simp only [List.length_cons]
          omega
        · have h3 : ¬ c ∈ x :: xs := by
            intro h; rcases hmem.mp h with h | h
            · omega
            · exact hc h
          rw [if_neg h3, List.filter_cons_of_neg (by simpa using h1),
            List.filter_cons_of_neg (by simpa using h2)]
          omega

theorem lowestFreeFrom_not_mem (used : List Nat) :
    ∀ (f c : Nat), (used.filter (fun x => decide (c ≤ x))).length ≤ f →
      lowestFreeFrom used f c ∉ used := by
  intro f
  induction f with
  | zero =>
    intro c h hmem
    have hnil : used.filter (fun x => decide (c ≤ x)) = [] :=
      List.length_eq_zero.mp (Nat.le_zero.mp h)
    have : c ∈ used.filter (fun x => decide (c ≤ x)) := by
      rw [List.mem_filter]; exact ⟨hmem, by simp⟩
    rw [hnil] at this
    exact absurd this (List.not_mem_nil _)
  | succ f ih =>
    intro c h
    unfold lowestFreeFrom
    by_cases hc : c ∈ used
    · rw [if_pos hc]
      apply ih
      have := filter_succ_le used c
      simp only [hc, if_true] at this
      omega
    · rw [if_neg hc]; exact hc

/-- The descriptor number handed out is not already open. -/
theorem lowestFree_not_mem (t : FdTable) : lowestFree t ∉ openFds t :=
  lowestFreeFrom_not_mem (openFds t) _ 0 (List.length_filter_le _ _)

theorem mem_openFds_of_descOf (t : FdTable) (fd : Nat) (d : Desc)
    (h : descOf t fd = some d) : fd ∈ openFds t := by
  induction t with
  | nil => simp [descOf] at h
  | cons e t ih =>
    obtain ⟨k, d'⟩ := e
    by_cases hk : k = fd
    · simp [openFds, hk]
    · simp only [descOf, hk, if_false] at h
      have := ih h
      simp only [openFds, List.map_cons, List.mem_cons]
      right
      exact this

/-- A descriptor that is open keeps its meaning when a new one is allocated. -/
theorem descOf_install (t : FdTable) (d d' : Desc) (fd : Nat)
    (h : descOf t fd = some d) :
    descOf (install t d').2 fd = some d := by
  have hne : lowestFree t ≠ fd := by
    intro he
    exact lowestFree_not_mem t (he ▸ mem_openFds_of_descOf t fd d h)
  simp [install, descOf, hne, h]

theorem descOf_install_self (t : FdTable) (d : Desc) :
    descOf (install t d).2 (install t d).1 = some d := by
  simp [install, descOf]

/-! ## The scan against the resolver rules -/

theorem scanLoop_plan (w : World) (toks : List Token) :
    ∀ (fuel i : Nat) (s : Scan) (di dout : Desc),
      i + fuel = toks.length →
      (∀ j, i ≤ j → j < toks.length → s.arguments j = toks[j]?) →
      descOf s.proc.fds s.input_fd = some di →
      descOf s.proc.fds s.output_fd = some dout →
      planOf (scanLoop w toks.length fuel i s) =
          specRules w s.proc.pipes (di, dout) (toks.drop i) ∧
        ∀ f q, scanLoop w toks.length fuel i s ≠ .fault f q := by
  intro fuel
  induction fuel with
  | zero =>
    intro i s di dout hi _ hin hout
    have hdrop : toks.drop i = [] := List.drop_eq_nil_of_le (by omega)
    simp [scanLoop, planOf, hin, hout, hdrop, specRules]
  | succ fuel ih =>
    intro i s di dout hi hargs hin hout
    have hlt : i < toks.length := by omega
    have hdrop : toks.drop i = toks[i] :: toks.drop (i + 1) := List.drop_eq_getElem_cons hlt
    have hai : s.arguments i = some toks[i] := by
      rw [hargs i (Nat.le_refl _) hlt, List.getElem?_eq_getElem hlt]
    have hhead : (toks.drop (i + 1)).head? = toks[i + 1]? := by
      rw [List.head?_drop]
    have hfuel : i + 1 + fuel = toks.length := by omega
    have hargs' : ∀ (a : ArgMem), (∀ j, i + 1 ≤ j → a j = s.arguments j) →
        ∀ j, i + 1 ≤ j → j < toks.length → a j = toks[j]? := by
      intro a ha j hj hjl
      rw [ha j hj]; exact hargs j (by omega) hjl
    rw [hdrop]
    unfold scanLoop
    rw [if_pos hlt]
    unfold scanStep
    rw [hai]
    simp only []
    unfold specRules
    by_cases hlt' : toks[i] = ['<']
    · rw [if_pos hlt', if_pos hlt', hhead]
      by_cases hnext : i + 1 < toks.length
      · have hc : i < toks.length - 1 := by omega
        have han : s.arguments (i + 1) = some toks[i + 1] := by
          rw [hargs (i + 1) (by omega) hnext, List.getElem?_eq_getElem hnext]
        rw [if_pos hc, han, List.getElem?_eq_getElem hnext]
        simp only []
        by_cases hr : w.canRead toks[i + 1] = true
        · rw [if_pos hr, if_pos hr]
          exact ih (i + 1) _ _ _ hfuel (hargs' _ (fun _ _ => rfl))
            (descOf_install_self _ _) (descOf_install _ _ _ _ hout)
        · rw [if_neg hr, if_neg hr]
          simp [planOf]
      · have hc : ¬ i < toks.length - 1 := by omega
        have hnone : toks[i + 1]? = none := List.getElem?_eq_none (by omega)
        rw [if_neg hc, hnone]
        exact ih (i + 1) s di dout hfuel (hargs' _ (fun _ _ => rfl)) hin hout
    · rw [if_neg hlt', if_neg hlt']
      by_cases hgt' : toks[i] = ['>']
      · rw [if_pos hgt', if_pos hgt', hhead]
        by_cases hnext : i + 1 < toks.length
        · have hc : i < toks.length - 1 := by omega
          have han : s.arguments (i + 1) = some toks[i + 1] := by
            rw [hargs (i + 1) (by omega) hnext, List.getElem?_eq_getElem hnext]
          rw [if_pos hc, han, List.getElem?_eq_getElem hnext]
          simp only []
          by_cases hr : w.canWrite toks[i + 1] = true
          · rw [if_pos hr, if_pos hr]
            exact ih (i + 1) _ _ _ hfuel (hargs' _ (fun _ _ => rfl))
              (descOf_install _ _ _ _ hin) (descOf_install_self _ _)
          · rw [if_neg hr, if_neg hr]
            simp [planOf]
        · have hc : ¬ i < toks.length - 1 := by omega
          have hnone : toks[i + 1]? = none := List.getElem?_eq_none (by omega)
          rw [if_neg hc, hnone]
          exact ih (i + 1) s di dout hfuel (hargs' _ (fun _ _ => rfl)) hin hout
      · rw [if_neg hgt', if_neg hgt']
        by_cases hp' : toks[i] = ['|']
        · rw [if_pos hp', if_pos hp']
          by_cases hok : w.pipeOk = true
          · rw [if_pos hok, if_pos hok]
            simp only []
            have hstore : ∀ j, i + 1 ≤ j → store s.arguments i none j = s.arguments j := by
              intro j hj
              have : j ≠ i := by omega
              simp [store, this]
            exact ih (i + 1) _ _ _ hfuel (hargs' _ hstore)
              (descOf_install _ _ _ _ (descOf_install_self _ _)) (descOf_install_self _ _)
          · rw [if_neg hok, if_neg hok]
            simp [planOf]
        · rw [if_neg hp', if_neg hp']
          exact ih (i + 1) s di dout hfuel (hargs' _ (fun _ _ => rfl)) hin hout

/-! ## Failing opens -/

/-- A scan step whose slots hold tokens either goes on, leaving the later
slots, the children and the reports alone, or ends the shell with
`EXIT_FAILURE` after one report. -/
theorem scanStep_cases (w : World) (n j : Nat) (s : Scan) (t t' : Token)
    (h : s.arguments j = some t) (h' : s.arguments (j + 1) = some t') :
    (∃ s1, scanStep w n j s = .ok s1 ∧ s1.proc.children = s.proc.children ∧
        s1.proc.stderr = s.proc.stderr ∧ ∀ m, j < m → s1.arguments m = s.arguments m) ∨
    (∃ tag, scanStep w n j s = .exit EXIT_FAILURE (perror s.proc tag) ∧
        (w.pipeOk = true → tag = "open")) := by
  unfold scanStep
  rw [h]
  simp only [h']
  split_ifs with h1 h2 h3 h4 h5 h6 h7 h8
  · left; exact ⟨_, rfl, rfl, rfl, fun _ _ => rfl⟩
  · right; exact ⟨"open", rfl, fun _ => rfl⟩
  · left; exact ⟨_, rfl, rfl, rfl, fun _ _ => rfl⟩
  · left; exact ⟨_, rfl, rfl, rfl, fun _ _ => rfl⟩
  · right; exact ⟨"open", rfl, fun _ => rfl⟩
  · left; exact ⟨_, rfl, rfl, rfl, fun _ _ => rfl⟩
  · left
    refine ⟨_, rfl, rfl, rfl, ?_⟩
    intro m hm
    have : m ≠ j := by omega
    simp [store, this]
  · right; exact ⟨"pipe", rfl, fun hp => absurd hp h8⟩
  · left; exact ⟨_, rfl, rfl, rfl, fun _ _ => rfl⟩

/-- The step at an operator whose operand cannot be opened. -/
theorem scanStep_open_fails (w : World) (n i : Nat) (s : Scan) (path : Token)
    (hi : i + 1 < n)
    (hop : (s.arguments i = some ['<'] ∧ w.canRead path = false) ∨
           (s.arguments i = some ['>'] ∧ w.canWrite path = false))
    (hpath : s.arguments (i + 1) = some path) :
    scanStep w n i s = .exit EXIT_FAILURE (perror s.proc "open") := by
  have hc : i < n - 1 := by omega
  unfold scanStep
  rcases hop with ⟨h, hr⟩ | ⟨h, hr⟩
  · rw [h]; simp [hc, hpath, hr]
  · rw [h]; simp [hc, hpath, hr]

theorem scanLoop_open_fails (w : World) (n i : Nat) (path : Token) (hi : i + 1 < n) :
    ∀ (fuel j : Nat) (s : Scan),
      j ≤ i → i < j + fuel →
      (∀ m, j ≤ m → m ≤ i + 1 → ∃ t, s.arguments m = some t) →
      ((s.arguments i = some ['<'] ∧ w.canRead path = false) ∨
        (s.arguments i = some ['>'] ∧ w.canWrite path = false)) →
      s.arguments (i + 1) = some path →
      ∃ (q : Proc) (tag : String), scanLoop w n fuel j s = .exit EXIT_FAILURE q ∧
        q.children = s.proc.children ∧ q.stderr = s.proc.stderr ++ [tag] ∧
        (w.pipeOk = true → tag = "open") := by
  intro fuel
  induction fuel with
  | zero => intro j s hj hf; omega
  | succ fuel ih =>
    intro j s hj hf hsome hop hpath
    have hjn : j < n := by omega
    unfold scanLoop
    rw [if_pos hjn]
    by_cases hji : j = i
    · subst hji
      rw [scanStep_open_fails w n j s path hi hop hpath]
      exact ⟨perror s.proc "open", "open", rfl, rfl, rfl, fun _ => rfl⟩
    · obtain ⟨t, ht⟩ := hsome j (Nat.le_refl _) (by omega)
      obtain ⟨t', ht'⟩ := hsome (j + 1) (by omega) (by omega)
      rcases scanStep_cases w n j s t t' ht ht' with ⟨s1, hs1, hch, herr, hargs⟩ | ⟨tag, hex, htag⟩
      · rw [hs1]
        simp only []
        have hsome1 : ∀ m, j + 1 ≤ m → m ≤ i + 1 → ∃ t, s1.arguments m = some t := by
          intro m hm hm'
          rw [hargs m (by omega)]
          exact hsome m (by omega) hm'
        have hop1 : (s1.arguments i = some ['<'] ∧ w.canRead path = false) ∨
            (s1.arguments i = some ['>'] ∧ w.canWrite path = false) := by
          rw [hargs i (by omega)]; exact hop
        have hpath1 : s1.arguments (i + 1) = some path := by
          rw [hargs (i + 1) (by omega)]; exact hpath
        obtain ⟨q, tag, hq, hqc, hqe, hqt⟩ :=
          ih (j + 1) s1 (by omega) (by omega) hsome1 hop1 hpath1
        exact ⟨q, tag, hq, by rw [hqc, hch], by rw [hqe, herr], hqt⟩
      · rw [hex]
        exact ⟨perror s.proc tag, tag, rfl, rfl, rfl, htag⟩

/-- Background detection on a non-empty argument array whose last slot
holds a token: it returns, and changes at most the last slot, and that
only when the token is `&`. -/
theorem detectBackground_ok (a : ArgMem) (n : Nat) (p : Proc) (tok : Token)
    (hn : 0 < n) (hlast : a (n - 1) = some tok) :
    ∃ (bg : Bool) (a1 : ArgMem), detectBackground a n p = .ok (bg, a1) ∧
      (∀ j, j ≠ n - 1 → a1 j = a j) ∧ (tok ≠ ['&'] → a1 = a) ∧
      (bg = true ↔ tok = ['&']) := by
  unfold detectBackground
  rw [if_pos hn, hlast]
  simp only []
  by_cases h : tok = ['&']
  · rw [if_pos h]
    refine ⟨true, _, rfl, ?_, fun hne => absurd h hne, by simp [h]⟩
    intro j hj
    simp [store, hj]
  · rw [if_neg h]
    exact ⟨false, a, rfl, fun _ _ => rfl, fun _ => rfl, by simp [h]⟩

/-- Every slot below `arg_count` holds a token after `tokenize`. -/
theorem tokenize_slot_some (mem : ArgMem) (line : List Char) (j : Nat)
    (hj : j < (tokenize mem line).arg_count) :
    ∃ t, (tokenize mem line).arguments j = some t := by
  rw [tokenize_arg_count] at hj
  exact ⟨(keptTokens line)[j], by rw [tokenize_slot mem line j hj, List.getElem?_eq_getElem hj]⟩

/-! ## What every pass does -/

/-- A scan step that goes on leaves the children and every other slot of
`arguments` alone. -/
theorem scanStep_frame (w : World) (n j : Nat) (s s1 : Scan)
    (h : scanStep w n j s = .ok s1) :
    s1.proc.children = s.proc.children ∧ ∀ m, m ≠ j → s1.arguments m = s.arguments m := by
  unfold scanStep at h
  split at h
  · exact absurd h (by simp)
  · split_ifs at h
    all_goals first
      | (injection h with h; subst h; exact ⟨rfl, fun _ _ => rfl⟩)
      | (injection h with h; subst h
         exact ⟨rfl, fun m hm => by simp [store, hm]⟩)
      | (split at h
         · exact absurd h (by simp)
         · split_ifs at h
           · injection h with h; subst h; exact ⟨rfl, fun _ _ => rfl⟩)

theorem scanLoop_children (w : World) (n : Nat) :
    ∀ (fuel j : Nat) (s s1 : Scan),
      scanLoop w n fuel j s = .ok s1 → s1.proc.children = s.proc.children := by
  intro fuel
  induction fuel with
  | zero =>
    intro j s s1 h
    simp only [scanLoop] at h
    injection h with h; subst h; rfl
  | succ fuel ih =>
    intro j s s1 h
    unfold scanLoop at h
    split_ifs at h with hj
    · cases hs : scanStep w n j s with
      | ok s2 =>
        rw [hs] at h
        simp only [] at h
        rw [ih (j + 1) s2 s1 h, (scanStep_frame w n j s s2 hs).1]
      | exit c q => rw [hs] at h; simp at h
      | fault f q => rw [hs] at h; simp at h
    · injection h with h; subst h; rfl

/-- The scan does not run to its end when the last slot below `arg_count`
is `NULL`. -/
theorem scanLoop_null_last (w : World) (n : Nat) (hn : 0 < n) :
    ∀ (fuel j : Nat) (s s1 : Scan),
      j ≤ n - 1 → n - 1 < j + fuel → s.arguments (n - 1) = none →
      scanLoop w n fuel j s ≠ .ok s1 := by
  intro fuel
  induction fuel with
  | zero => intro j s s1 hj hf; omega
  | succ fuel ih =>
    intro j s s1 hj hf hnull h
    unfold scanLoop at h
    have hjn : j < n := by omega
    rw [if_pos hjn] at h
    cases hs : scanStep w n j s with
    | ok s2 =>
      rw [hs] at h
      simp only [] at h
      by_cases hlast : j = n - 1
      · subst hlast
        unfold scanStep at hs
        rw [hnull] at hs
        simp at hs
      · have hkeep := (scanStep_frame w n j s s2 hs).2 (n - 1) (by omega)
        exact ih (j + 1) s2 s1 (by omega) (by omega) (by rw [hkeep]; exact hnull) h
    | exit c q => rw [hs] at h; simp at h
    | fault f q => rw [hs] at h; simp at h

/-- A pass whose tokenizer stayed inside the array goes on with background
detection, the scan and the spawn. -/
theorem iteration_of_no_overflow (w : World) (p : Proc) (mem : ArgMem) (line : List Char)
    (h : (tokenize mem line).overflow = none) :
    iteration w p mem line =
      match resolve w p (tokenize mem line).arguments (tokenize mem line).arg_count with
      | .fault f q => .fault f q
      | .exit c q => .exit c q
      | .ok (background, s) => spawn w s background := by
  unfold iteration
  simp only [h]

/-- A pass whose tokenizer stored outside the array ends there. -/
theorem iteration_of_overflow (w : World) (p : Proc) (mem : ArgMem) (line : List Char)
    (i : Nat) (h : (tokenize mem line).overflow = some i) :
    iteration w p mem line = .fault (.storeOutOfBounds i) p := by
  unfold iteration
  simp only [h]

/-- No line whose last kept token is `&` gets as far as `fork`: the pass
never returns to the prompt. -/
theorem trailing_ampersand_never_returns (w : World) (p : Proc) (mem : ArgMem)
    (line : List Char) (q : Proc)
    (hlast : (keptTokens line).getLast? = some ['&']) :
    iteration w p mem line ≠ .ok q := by
  have hne : keptTokens line ≠ [] := by
    intro h; rw [h] at hlast; simp at hlast
  have hlen : 0 < (keptTokens line).length := List.length_pos.mpr hne
  have hcount := tokenize_arg_count mem line
  have hslot : (tokenize mem line).arguments ((tokenize mem line).arg_count - 1) =
      some ['&'] := by
    rw [hcount, tokenize_slot mem line _ (by omega)]
    rw [List.getLast?_eq_getElem?] at hlast
    exact hlast
  have hbg : detectBackground (tokenize mem line).arguments (tokenize mem line).arg_count p =
      .ok (true, store (tokenize mem line).arguments ((tokenize mem line).arg_count - 1)
        none) := by
    unfold detectBackground
    rw [if_pos (by omega), hslot]
    simp
  intro h
  cases ho : (tokenize mem line).overflow with
  | some i => rw [iteration_of_overflow w p mem line i ho] at h; simp at h
  | none =>
    rw [iteration_of_no_overflow w p mem line ho] at h
    unfold resolve at h
    simp only [hbg] at h
    cases hs : scan w (store (tokenize mem line).arguments
        ((tokenize mem line).arg_count - 1) none) (tokenize mem line).arg_count p with
    | ok s =>
      unfold scan at hs
      exact scanLoop_null_last w _ (by omega) _ 0 _ s (Nat.zero_le _) (by omega)
        (by simp [store]) hs
    | exit c q1 => rw [hs] at h; simp at h
    | fault f q1 => rw [hs] at h; simp at h

/-- Every pass that returns to the prompt has forked exactly one child,
whatever the line was: there is no path around `fork`. -/
theorem iteration_ok_forks (w : World) (p : Proc) (mem : ArgMem) (line : List Char)
    (q : Proc) (h : iteration w p mem line = .ok q) :
    q.children.length = p.children.length + 1 := by
  have ho : (tokenize mem line).overflow = none := by
    cases ho : (tokenize mem line).overflow with
    | none => rfl
    | some i => rw [iteration_of_overflow w p mem line i ho] at h; simp at h
  rw [iteration_of_no_overflow w p mem line ho] at h
  unfold resolve at h
  cases hb : detectBackground (tokenize mem line).arguments (tokenize mem line).arg_count p with
  | exit c q1 => simp [hb] at h
  | fault f q1 => simp [hb] at h
  | ok r =>
    obtain ⟨bg, a1⟩ := r
    simp only [hb] at h
    cases hs : scan w a1 (tokenize mem line).arg_count p with
    | exit c q1 => simp [hs] at h
    | fault f q1 => simp [hs] at h
    | ok s =>
      simp only [hs] at h
      have hch : s.proc.children = p.children := by
        unfold scan at hs
        exact scanLoop_children w _ _ 0 _ s hs
      unfold spawn at h
      split_ifs at h with hf
      unfold parentAfterFork at h
      simp only [] at h
      split_ifs at h
      all_goals
        injection h with h
        subst h
        simp [hch]

/-! ## The claims -/

/-- C1, the code at the failing input: for the line `sort < in.txt > out.txt`,
with both files openable, the pass forks one child whose standard input is
`in.txt` and whose standard output is `out.txt`, but the argument list it
hands to `execvp` is `sort`, `<`, `in.txt`, `>`, `out.txt`: the operator
tokens and their operands are still in it. -/
theorem redirection_tokens_reach_execvp :
    iteration worldOk proc0 mem0 "sort < in.txt > out.txt\n".toList =
      .ok { fds := [(4, .wrtrunc "out.txt".toList 0o666), (3, .rdonly "in.txt".toList),
                    (0, .inherited 0), (1, .inherited 1), (2, .inherited 2)]
            pipes := 0
            stderr := []
            children := [.execvp (some "sort".toList)
              ["sort".toList, "<".toList, "in.txt".toList, ">".toList, "out.txt".toList]
              [(1, .wrtrunc "out.txt".toList 0o666), (0, .rdonly "in.txt".toList),
               (2, .inherited 2)]]
            waited := [0] } := by
  decide

/-- Below the bound the tokenizer is right: for every line holding fewer
than `MAX_COMMAND_LINE_ARGS` tokens no store leaves the array, `arg_count`
is the number of maximal runs of non-delimiter characters,
`arguments[0 .. arg_count-1]` hold exactly those runs in left-to-right order
and `arguments[arg_count]` is `NULL`; every run is non-empty and holds no
delimiter, and joined together the runs are the line with its delimiters
taken out; the line `echo  a   b\tc\n` yields `echo`, `a`, `b`, `c`. -/
theorem tokenize_below_bound (mem : ArgMem) (line : List Char)
    (h : (maximalRuns line).length < MAX_COMMAND_LINE_ARGS) :
    (tokenize mem line).overflow = none ∧
    (tokenize mem line).arg_count = (maximalRuns line).length ∧
    slots (tokenize mem line).arguments (tokenize mem line).arg_count =
      (maximalRuns line).map some ∧
    (tokenize mem line).arguments (tokenize mem line).arg_count = none ∧
    (∀ t ∈ maximalRuns line, t ≠ [] ∧ ∀ c ∈ t, isDelim c = false) ∧
    (maximalRuns line).flatten = line.filter (fun c => !isDelim c) ∧
    slots (tokenize mem "echo  a   b\tc\n".toList).arguments
        (tokenize mem "echo  a   b\tc\n".toList).arg_count =
      [some "echo".toList, some "a".toList, some "b".toList, some "c".toList] := by
  have hk : keptTokens line = maximalRuns line := by
    unfold keptTokens
    exact List.take_of_length_le (Nat.le_of_lt h)
  have hc : (tokenize mem line).arg_count < MAX_COMMAND_LINE_ARGS := by
    rw [tokenize_arg_count, hk]; exact h
  refine ⟨?_, ?_, ?_, tokenize_terminator mem line hc, maximalRuns_token line,
    maximalRuns_flatten line, ?_⟩
  · rw [tokenize_overflow, if_pos hc]
  · rw [tokenize_arg_count, hk]
  · rw [tokenize_slots, hk]
  · rw [tokenize_slots]
    decide

set_option maxRecDepth 1000000 in
/-- C2, the code at the failing input: the line of 128 one-letter tokens
holds at most `MAX_COMMAND_LINE_ARGS` tokens, and on it the tokenizer's
store `arguments[arg_count] = NULL` has index 128, outside the array: what
the slots and the token text hold afterwards is not defined, and the pass
ends in that store. -/
theorem full_line_store_leaves_array :
    (maximalRuns line128).length ≤ MAX_COMMAND_LINE_ARGS ∧
    (maximalRuns line128).length = 128 ∧
    (tokenize mem0 line128).overflow = some 128 ∧
    iteration worldOk proc0 mem0 line128 = .fault (.storeOutOfBounds 128) proc0 := by
  refine ⟨by decide, by decide, by decide, by decide⟩

/-- C3, the code at the failing input: for the line `sleep 2 &` the
background flag is set, but the pass then ends in `strcmp(arguments[2], "<")`
with `arguments[2] == NULL`, before `fork`: no child exists and the shell
state is the one the pass started in. -/
theorem background_line_faults_before_fork :
    backgroundOf (detectBackground (tokenize mem0 "sleep 2 &\n".toList).arguments
        (tokenize mem0 "sleep 2 &\n".toList).arg_count proc0) = some true ∧
    iteration worldOk proc0 mem0 "sleep 2 &\n".toList = .fault (.strcmpNull 2) proc0 := by
  decide

/-- C4 as stated fails: for the line `cat < missing`, where the open fails,
the pass does not return to the prompt; the shell process calls
`exit(EXIT_FAILURE)` after `perror("open")`, with no child forked. -/
theorem failed_open_ends_shell :
    iteration worldNoFiles proc0 mem0 "cat < missing\n".toList =
      .exit EXIT_FAILURE { proc0 with stderr := ["open"] } := by
  decide

/-- C4 as amended: for every line of fewer than `MAX_COMMAND_LINE_ARGS`
tokens, whenever slot `i` of the tokenized line holds `<` or `>` and slot
`i + 1` holds a path whose open fails (that path not being a trailing `&`,
which background detection has replaced by `NULL`), the pass ends with the
shell process calling `exit(EXIT_FAILURE)`; no child has been forked and
exactly one report has been written, which is the one for `open` unless an
earlier `pipe` call failed. -/
theorem open_failure_exits_shell (w : World) (p : Proc) (mem : ArgMem) (line : List Char)
    (i : Nat) (path : Token)
    (hbound : (tokenize mem line).arg_count < MAX_COMMAND_LINE_ARGS)
    (hi : i + 1 < (tokenize mem line).arg_count)
    (hop : ((tokenize mem line).arguments i = some ['<'] ∧ w.canRead path = false) ∨
           ((tokenize mem line).arguments i = some ['>'] ∧ w.canWrite path = false))
    (hpath : (tokenize mem line).arguments (i + 1) = some path)
    (hamp : ¬ (i + 2 = (tokenize mem line).arg_count ∧ path = ['&'])) :
    ∃ (q : Proc) (tag : String),
      iteration w p mem line = .exit EXIT_FAILURE q ∧
      q.children = p.children ∧ q.stderr = p.stderr ++ [tag] ∧
      (w.pipeOk = true → tag = "open") := by
  have hn : 0 < (tokenize mem line).arg_count := by omega
  obtain ⟨tok, htok⟩ := tokenize_slot_some mem line ((tokenize mem line).arg_count - 1) (by omega)
  obtain ⟨bg, a1, hbg, hsame, hkeep, _⟩ :=
    detectBackground_ok (tokenize mem line).arguments (tokenize mem line).arg_count p tok hn htok
  have hai : a1 i = (tokenize mem line).arguments i := hsame i (by omega)
  have hap : a1 (i + 1) = some path := by
    by_cases hlast : i + 1 = (tokenize mem line).arg_count - 1
    · have hne : tok ≠ ['&'] := by
        intro he
        apply hamp
        refine ⟨by omega, ?_⟩
        rw [hlast, htok] at hpath
        rw [← Option.some.inj hpath]; exact he
      rw [hkeep hne]; exact hpath
    · rw [hsame (i + 1) hlast]; exact hpath
  have hsome : ∀ m, 0 ≤ m → m ≤ i + 1 → ∃ t, a1 m = some t := by
    intro m _ hm
    by_cases hmi : m = i + 1
    · subst hmi; exact ⟨path, hap⟩
    · rw [hsame m (by omega)]
      exact tokenize_slot_some mem line m (by omega)
  obtain ⟨q, tag, hq, hqc, hqe, hqt⟩ :=
    scanLoop_open_fails w (tokenize mem line).arg_count i path hi
      (tokenize mem line).arg_count 0
      { arguments := a1, input_fd := STDIN_FILENO, output_fd := STDOUT_FILENO,
        pipe_fd := (0, 0), proc := p }
      (Nat.zero_le _) (by omega) hsome (by show (a1 i = _ ∧ _) ∨ (a1 i = _ ∧ _); rw [hai]; exact hop) hap
  refine ⟨q, tag, ?_, hqc, hqe, hqt⟩
  have ho : (tokenize mem line).overflow = none := by
    rw [tokenize_overflow, if_pos hbound]
  rw [iteration_of_no_overflow w p mem line ho]
  unfold resolve
  simp only [hbg]
  unfold scan
  rw [hq]

/-- C4 as amended, at the line `cat < missing` in a world without files. -/
theorem open_failure_exits_shell_witness :
    ((tokenize mem0 "cat < missing\n".toList).arg_count < MAX_COMMAND_LINE_ARGS) ∧
    (1 + 1 < (tokenize mem0 "cat < missing\n".toList).arg_count) ∧
    (((tokenize mem0 "cat < missing\n".toList).arguments 1 = some ['<'] ∧
        worldNoFiles.canRead "missing".toList = false) ∨
      ((tokenize mem0 "cat < missing\n".toList).arguments 1 = some ['>'] ∧
        worldNoFiles.canWrite "missing".toList = false)) ∧
    ((tokenize mem0 "cat < missing\n".toList).arguments (1 + 1) = some "missing".toList) ∧
    ¬ (1 + 2 = (tokenize mem0 "cat < missing\n".toList).arg_count ∧
        "missing".toList = ['&']) ∧
    (∃ (q : Proc) (tag : String),
      iteration worldNoFiles proc0 mem0 "cat < missing\n".toList = .exit EXIT_FAILURE q ∧
      q.children = proc0.children ∧ q.stderr = proc0.stderr ++ [tag] ∧
      (worldNoFiles.pipeOk = true → tag = "open")) :=
  ⟨by decide, by decide, by decide, by decide, by decide,
    open_failure_exits_shell worldNoFiles proc0 mem0 "cat < missing\n".toList 1
      "missing".toList (by decide) (by decide) (by decide) (by decide) (by decide)⟩

/-- C5, the code at the failing input: for the whitespace-only line
`  \t\n` the token list is empty (`arg_count` is 0 and `arguments[0]` is
`NULL`), and the pass still forks: the child calls `execvp` with a `NULL`
file name and an empty argument list, and the parent waits for it. -/
theorem blank_line_forks :
    (tokenize mem0 "  \t\n".toList).arg_count = 0 ∧
    (tokenize mem0 "  \t\n".toList).arguments 0 = none ∧
    iteration worldOk proc0 mem0 "  \t\n".toList =
      .ok { proc0 with children := [.execvp none [] proc0.fds], waited := [0] } := by
  decide

/-- C6, the code at the failing inputs: for each of the lines `cd`, `pwd`,
`echo`, `env`, `setenv` the pass forks a child that calls `execvp` with
that name, and the parent waits for it; no builtin handler runs. -/
theorem builtin_names_fork :
    builtinNames.map (fun b => iteration worldOk proc0 mem0 (b ++ ['\n'])) =
      builtinNames.map (fun b =>
        .ok { proc0 with children := [.execvp (some b) [b] proc0.fds], waited := [0] }) := by
  decide

theorem slots_getElem (a : ArgMem) (toks : List Token)
    (ha : slots a toks.length = toks.map some) (j : Nat) (hj : j < toks.length) :
    a j = toks[j]? := by
  have h1 : (slots a toks.length)[j]? = some (a j) := by
    simp [slots, hj]
  rw [ha] at h1
  rw [List.getElem?_map, List.getElem?_eq_getElem hj] at h1
  simp only [Option.map_some'] at h1
  rw [List.getElem?_eq_getElem hj]
  exact (Option.some.inj h1).symm

/-- The scan by itself follows the resolver rules: started on an argument
array whose first `arg_count` slots all hold tokens, with standard input and
output open, it never reads a `NULL` slot, and what `input_fd` and
`output_fd` refer to at its end is the result of applying the rules once
from left to right, later assignments overwriting earlier ones; it ends
the shell exactly when one of the opens or pipes fails. In `main` the scan
starts on such an array only when the last token is not `&`. -/
theorem scan_plan_eq_specRules (w : World) (p : Proc) (a : ArgMem) (toks : List Token)
    (d0 d1 : Desc)
    (ha : slots a toks.length = toks.map some)
    (h0 : descOf p.fds STDIN_FILENO = some d0)
    (h1 : descOf p.fds STDOUT_FILENO = some d1) :
    planOf (scan w a toks.length p) = specRules w p.pipes (d0, d1) toks ∧
    faultOf (scan w a toks.length p) = none := by
  have hmain := scanLoop_plan w toks toks.length 0
    { arguments := a, input_fd := STDIN_FILENO, output_fd := STDOUT_FILENO,
      pipe_fd := (0, 0), proc := p } d0 d1 (by omega)
    (fun j _ hj => slots_getElem a toks ha j hj) h0 h1
  rw [List.drop_zero] at hmain
  refine ⟨hmain.1, ?_⟩
  have hnf := hmain.2
  unfold scan
  cases hs : scanLoop w toks.length toks.length 0
      { arguments := a, input_fd := STDIN_FILENO, output_fd := STDOUT_FILENO,
        pipe_fd := (0, 0), proc := p } with
  | ok s => rfl
  | exit c q => rfl
  | fault f q => exact absurd hs (hnf f q)

/-- The scan on the argument list `sort < a < b > c >`: the last input
redirection scanned and the only complete output redirection determine the
plan. -/
theorem scan_plan_eq_specRules_witness :
    (slots (fun i => ["sort".toList, ['<'], ['a'], ['<'], ['b'], ['>'], ['c'], ['>']][i]?)
        ["sort".toList, ['<'], ['a'], ['<'], ['b'], ['>'], ['c'], ['>']].length =
      ["sort".toList, ['<'], ['a'], ['<'], ['b'], ['>'], ['c'], ['>']].map some) ∧
    descOf proc0.fds STDIN_FILENO = some (.inherited 0) ∧
    descOf proc0.fds STDOUT_FILENO = some (.inherited 1) ∧
    (planOf (scan worldOk
          (fun i => ["sort".toList, ['<'], ['a'], ['<'], ['b'], ['>'], ['c'], ['>']][i]?)
          ["sort".toList, ['<'], ['a'], ['<'], ['b'], ['>'], ['c'], ['>']].length proc0) =
        specRules worldOk proc0.pipes (.inherited 0, .inherited 1)
          ["sort".toList, ['<'], ['a'], ['<'], ['b'], ['>'], ['c'], ['>']] ∧
      faultOf (scan worldOk
          (fun i => ["sort".toList, ['<'], ['a'], ['<'], ['b'], ['>'], ['c'], ['>']][i]?)
          ["sort".toList, ['<'], ['a'], ['<'], ['b'], ['>'], ['c'], ['>']].length proc0) =
        none) ∧
    specRules worldOk proc0.pipes (.inherited 0, .inherited 1)
        ["sort".toList, ['<'], ['a'], ['<'], ['b'], ['>'], ['c'], ['>']] =
      some (.rdonly ['b'], .wrtrunc ['c'] 0o666) :=
  ⟨by decide, by decide, by decide,
    scan_plan_eq_specRules worldOk proc0 _ _ _ _ (by decide) (by decide) (by decide),
    by decide⟩

/-- C7, the code at the failing input: for the argument list `cat`, `<`,
`f`, `&` the rules give the plan (input `f` opened read-only, output the
inherited standard output) for the list without its trailing `&`, but the
code yields no plan: the scan opens `f` as descriptor 3 and then ends in
`strcmp(arguments[3], "<")` with `arguments[3] == NULL`, before `fork`. -/
theorem background_line_yields_no_plan :
    specRules worldOk proc0.pipes (.inherited 0, .inherited 1)
        ["cat".toList, ['<'], ['f']] =
      some (.rdonly ['f'], .inherited 1) ∧
    (tokenize mem0 "cat < f &\n".toList).arg_count = 4 ∧
    faultOf (resolve worldOk proc0 (tokenize mem0 "cat < f &\n".toList).arguments
        (tokenize mem0 "cat < f &\n".toList).arg_count) = some (.strcmpNull 3) ∧
    iteration worldOk proc0 mem0 "cat < f &\n".toList =
      .fault (.strcmpNull 3) { proc0 with fds := (3, .rdonly ['f']) :: proc0.fds } := by
  decide

/-- The line `cat < &`: the `NULL` left by background detection is handed
to `open`; the call fails, the shell reports it and exits with
`EXIT_FAILURE`, and no child is forked. -/
theorem open_null_reports_and_exits :
    iteration worldOk proc0 mem0 "cat < &\n".toList =
      .fault (.openNull 2) (perror proc0 "open") ∧
    exitStatus (iteration worldOk proc0 mem0 "cat < &\n".toList) = some EXIT_FAILURE := by
  decide

/-- C8, the code at the failing input: for the line `cat < in.txt`, with
the file openable, the pass reaches its end with descriptor 3 (the file)
still open in the parent next to the standard three. -/
theorem redirected_file_stays_open :
    fdsAfter (iteration worldOk proc0 mem0 "cat < in.txt\n".toList) = [3, 0, 1, 2] ∧
    openFds proc0.fds = [0, 1, 2] ∧
    (iteration worldOk proc0 mem0 "cat < in.txt\n".toList =
      .ok { proc0 with
        fds := (3, .rdonly "in.txt".toList) :: proc0.fds
        children := [.execvp (some "cat".toList)
          ["cat".toList, "<".toList, "in.txt".toList]
          [(0, .rdonly "in.txt".toList), (1, .inherited 1), (2, .inherited 2)]]
        waited := [0] }) := by
  decide

/-- C9, the code at the failing inputs: for the line `sleep 2 &` the scan
runs over indices 0 .. 2 and calls `strcmp` on `arguments[2]`, which is
`NULL`; for the line `cat < &` it passes `arguments[2]`, which is `NULL`,
to `open`. -/
theorem scan_reads_null_slot :
    (tokenize mem0 "sleep 2 &\n".toList).arg_count = 3 ∧
    faultOf (resolve worldOk proc0 (tokenize mem0 "sleep 2 &\n".toList).arguments
        (tokenize mem0 "sleep 2 &\n".toList).arg_count) = some (.strcmpNull 2) ∧
    (tokenize mem0 "cat < &\n".toList).arg_count = 3 ∧
    faultOf (resolve worldOk proc0 (tokenize mem0 "cat < &\n".toList).arguments
        (tokenize mem0 "cat < &\n".toList).arg_count) = some (.openNull 2) := by
  decide

set_option maxRecDepth 1000000 in
/-- C10, the code at the failing input: for a line of 128 one-letter tokens
(257 characters, which fits the line buffer) the tokenizer stores the
terminating `NULL` at index 128, which is not below `MAX_COMMAND_LINE_ARGS`. -/
theorem terminator_written_out_of_bounds :
    line128.length ≤ MAX_COMMAND_LINE_LEN - 1 ∧
    (tokenize mem0 line128).arg_count = 128 ∧
    (tokenize mem0 line128).writes.getLast? = some 128 ∧
    ¬ (128 < MAX_COMMAND_LINE_ARGS) := by
  refine ⟨by decide, by decide, by decide, by decide⟩

end Shell
